import Mathlib

/-!
Verification of the `new-pywallet` Bitcoin wallet recovery tool.

Shallow embedding of the core routines of the repository:
byte sequences are `List Nat` (every element `< 256` where the Python type
is `bytes`), text is `List Char`, and Python exceptions are `Except PyErr`.
External cryptographic library primitives that the repository merely calls
(the AES block cipher of PyCryptodome, PBKDF2 of hashlib, RIPEMD-160 of
hashlib) are taken as explicit function parameters; SHA-256, which the
repository uses for Base58Check checksums, is implemented concretely below.
-/

set_option maxRecDepth 20000

namespace PyWallet

/-! ## Python exception values

One constructor per `raise` site relevant to the claims. -/

/-- Python exception outcomes used by the embedded code. -/
inductive PyErr where
  /-- `ValueError` (bad padding, bad base58 character, bad cipher input). -/
  | valueError : PyErr
  /-- `IndexError` (integer indexing past the end of a bytes object). -/
  | indexError : PyErr
  /-- `struct.error` (unpacking a buffer of the wrong size). -/
  | structError : PyErr
  /-- `KeyError("Invalid WIF key (checksum mismatch)")`. -/
  | keyErrorChecksum : PyErr
  /-- `KeyError("WIF key is for a different network ...")`. -/
  | keyErrorNetwork : PyErr
  /-- `KeyError("Invalid WIF key length ...")`. -/
  | keyErrorLength : PyErr
  /-- `KeyError: 0` from indexing a field dict with `[0]`. -/
  | keyErrorZero : PyErr
  /-- `WalletDBError` raised by `read_wallet`'s blanket handler. -/
  | walletDBError : PyErr
  deriving DecidableEq, Repr

deriving instance DecidableEq for Except

/-! ## Positional numerals with explicit fuel

`int.from_bytes`, `int.to_bytes` and the Base58 divmod loop all convert
between natural numbers and digit lists.  The divmod loops are embedded with
structural recursion on a fuel argument so that every definition reduces in
the kernel. -/

/-- Value of a little-endian digit list in base `b`. -/
def ofDigitsLE (b : Nat) : List Nat → Nat
  | [] => 0
  | d :: ds => d + b * ofDigitsLE b ds

/-- Little-endian base-`b` digits of `n`, by repeated divmod (the loop
`while n > 0: n, r = divmod(n, b)`); `fuel ≥ n` makes the recursion total. -/
def toDigitsLE (b : Nat) : Nat → Nat → List Nat
  | 0, _ => []
  | fuel + 1, n => if n = 0 then [] else n % b :: toDigitsLE b fuel (n / b)

theorem toDigitsLE_zero (b fuel : Nat) : toDigitsLE b fuel 0 = [] := by
  cases fuel <;> simp [toDigitsLE]

theorem ofDigitsLE_toDigitsLE {b : Nat} (hb : 2 ≤ b) :
    ∀ fuel n, n ≤ fuel → ofDigitsLE b (toDigitsLE b fuel n) = n := by
  intro fuel
  induction fuel with
  | zero => intro n hn; interval_cases n; simp [toDigitsLE, ofDigitsLE]
  | succ fuel ih =>
    intro n hn
    by_cases h0 : n = 0
    · simp [h0, toDigitsLE, ofDigitsLE]
    · have hdiv : n / b < n := Nat.div_lt_self (Nat.pos_of_ne_zero h0) hb
      have : n / b ≤ fuel := Nat.lt_succ_iff.mp (Nat.lt_of_lt_of_le hdiv hn)
      simp only [toDigitsLE, h0, if_false, ofDigitsLE, ih _ this]
      exact Nat.mod_add_div n b

theorem toDigitsLE_lt {b : Nat} (hb : 2 ≤ b) :
    ∀ fuel n d, d ∈ toDigitsLE b fuel n → d < b := by
  intro fuel
  induction fuel with
  | zero => intro n d hd; simp [toDigitsLE] at hd
  | succ fuel ih =>
    intro n d hd
    by_cases h0 : n = 0
    · simp [h0, toDigitsLE] at hd
    · simp only [toDigitsLE, h0, if_false, List.mem_cons] at hd
      rcases hd with h | h
      · subst h; exact Nat.mod_lt _ (by omega)
      · exact ih _ _ h

theorem getLast?_cons_ne_nil {α : Type} (d : α) {ds : List α} (h : ds ≠ []) :
    (d :: ds).getLast? = ds.getLast? := by
  cases ds with
  | nil => exact absurd rfl h
  | cons x xs => exact List.getLast?_cons_cons

theorem toDigitsLE_eq_nil_iff {b : Nat} :
    ∀ fuel n, n ≤ fuel → (toDigitsLE b fuel n = [] ↔ n = 0) := by
  intro fuel n hn
  cases fuel with
  | zero => interval_cases n; simp [toDigitsLE]
  | succ fuel =>
    by_cases h0 : n = 0
    · simp [h0, toDigitsLE]
    · simp [toDigitsLE, h0]

theorem toDigitsLE_getLast_ne_zero {b : Nat} (hb : 2 ≤ b) :
    ∀ fuel n, n ≤ fuel → (toDigitsLE b fuel n).getLast? ≠ some 0 := by
  intro fuel
  induction fuel with
  | zero => intro n hn; interval_cases n; simp [toDigitsLE]
  | succ fuel ih =>
    intro n hn
    by_cases h0 : n = 0
    · simp [h0, toDigitsLE]
    · have hdiv : n / b < n := Nat.div_lt_self (Nat.pos_of_ne_zero h0) hb
      have hfuel : n / b ≤ fuel := Nat.lt_succ_iff.mp (Nat.lt_of_lt_of_le hdiv hn)
      simp only [toDigitsLE, h0, if_false]
      by_cases hq : n / b = 0
      · rw [hq, toDigitsLE_zero, List.getLast?_singleton]
        have hlt : n < b := by
          by_contra hge
          have := Nat.div_le_div_right (c := b) (Nat.le_of_not_lt hge)
          rw [Nat.div_self (by omega)] at this
          omega
        rw [Nat.mod_eq_of_lt hlt]
        simp [h0]
      · have htail : toDigitsLE b fuel (n / b) ≠ [] := by
          intro hc
          exact hq ((toDigitsLE_eq_nil_iff fuel (n / b) hfuel).mp hc)
        rw [getLast?_cons_ne_nil _ htail]
        exact ih _ hfuel

theorem ofDigitsLE_pos {b : Nat} (hb : 2 ≤ b) :
    ∀ l : List Nat, l ≠ [] → l.getLast? ≠ some 0 → 0 < ofDigitsLE b l := by
  intro l
  induction l with
  | nil => intro h; exact absurd rfl h
  | cons d ds ih =>
    intro _ hlast
    by_cases hds : ds = []
    · subst hds
      simp only [List.getLast?_singleton] at hlast
      have hd : d ≠ 0 := fun h => hlast (by simp [h])
      simp [ofDigitsLE]
      omega
    · rw [getLast?_cons_ne_nil _ hds] at hlast
      have h1 := ih hds hlast
      have h2 : 0 < b * ofDigitsLE b ds := Nat.mul_pos (by omega) h1
      simp only [ofDigitsLE]
      omega

theorem toDigitsLE_ofDigitsLE {b : Nat} (hb : 2 ≤ b) :
    ∀ (l : List Nat) fuel, (∀ d ∈ l, d < b) → l.getLast? ≠ some 0 →
      ofDigitsLE b l ≤ fuel → toDigitsLE b fuel (ofDigitsLE b l) = l := by
  intro l
  induction l with
  | nil => intro fuel _ _ _; simp [ofDigitsLE, toDigitsLE_zero]
  | cons d ds ih =>
    intro fuel hlt hlast hfuel
    have hpos : 0 < ofDigitsLE b (d :: ds) :=
      ofDigitsLE_pos hb _ (by simp) hlast
    rcases fuel with _ | fuel
    · omega
    have hd : d < b := hlt d (by simp)
    have hmod : ofDigitsLE b (d :: ds) % b = d := by
      simp only [ofDigitsLE]
      rw [Nat.add_mul_mod_self_left]
      exact Nat.mod_eq_of_lt hd
    have hdivq : ofDigitsLE b (d :: ds) / b = ofDigitsLE b ds := by
      simp only [ofDigitsLE]
      rw [Nat.add_mul_div_left _ _ (by omega : 0 < b)]
      rw [Nat.div_eq_of_lt hd]
      omega
    simp only [toDigitsLE, Nat.pos_iff_ne_zero.mp hpos, if_false, hmod, hdivq]
    by_cases hds : ds = []
    · subst hds; simp [ofDigitsLE, toDigitsLE_zero]
    · congr 1
      apply ih
      · intro x hx; exact hlt x (by simp [hx])
      · rwa [getLast?_cons_ne_nil _ hds] at hlast
      · have hunf : ofDigitsLE b (d :: ds) = d + b * ofDigitsLE b ds := rfl
        have h2X : 2 * ofDigitsLE b ds ≤ b * ofDigitsLE b ds :=
          Nat.mul_le_mul_right _ hb
        omega

theorem ofDigitsLE_append_last (b : Nat) (l : List Nat) (d : Nat) :
    ofDigitsLE b (l ++ [d]) = ofDigitsLE b l + d * b ^ l.length := by
  induction l with
  | nil => simp [ofDigitsLE]
  | cons x xs ih =>
    simp only [List.cons_append, ofDigitsLE, List.append_eq, ih, List.length_cons]
    ring

theorem foldl_base (b : Nat) :
    ∀ (l : List Nat) (acc : Nat),
      l.foldl (fun a d => a * b + d) acc = acc * b ^ l.length + ofDigitsLE b l.reverse := by
  intro l
  induction l with
  | nil => intro acc; simp [ofDigitsLE]
  | cons d ds ih =>
    intro acc
    simp only [List.foldl_cons, ih, List.reverse_cons, ofDigitsLE_append_last,
      List.length_reverse, List.length_cons]
    ring

/-! ## Byte-string / integer conversions

`int.from_bytes(data, 'big')` and `n.to_bytes((n.bit_length() + 7) // 8,
'big')`; the latter is exactly the minimal big-endian encoding of `n`
(empty for `n = 0`). -/

/-- `int.from_bytes(data, byteorder='big')`. -/
def from_bytes_big (data : List Nat) : Nat :=
  data.foldl (fun acc byte => acc * 256 + byte) 0

/-- `n.to_bytes((n.bit_length() + 7) // 8, byteorder='big')`: the minimal
big-endian byte encoding of `n` (empty for `n = 0`). -/
def int_to_bytes_big (n : Nat) : List Nat :=
  (toDigitsLE 256 n n).reverse

/-! ## SHA-256

The repository computes Base58Check checksums with
`hashlib.sha256(hashlib.sha256(data).digest()).digest()[:4]`; SHA-256 is
implemented here concretely (FIPS 180-4) over `List Nat` bytes so that the
checksum computations evaluate in the kernel. -/

/-- Reduce modulo `2 ^ 32`. -/
def w32 (n : Nat) : Nat := n % 4294967296

/-- Rotate a 32-bit word right by `k`. -/
def rotr32 (k x : Nat) : Nat := w32 ((x >>> k) ||| (x <<< (32 - k)))

/-- SHA-256 `Ch`. -/
def shaCh (e f g : Nat) : Nat := (e &&& f) ^^^ ((e ^^^ 4294967295) &&& g)

/-- SHA-256 `Maj`. -/
def shaMaj (a b c : Nat) : Nat := (a &&& b) ^^^ (a &&& c) ^^^ (b &&& c)

/-- SHA-256 `Σ0`. -/
def bigSigma0 (x : Nat) : Nat := rotr32 2 x ^^^ rotr32 13 x ^^^ rotr32 22 x

/-- SHA-256 `Σ1`. -/
def bigSigma1 (x : Nat) : Nat := rotr32 6 x ^^^ rotr32 11 x ^^^ rotr32 25 x

/-- SHA-256 `σ0`. -/
def smallSigma0 (x : Nat) : Nat := rotr32 7 x ^^^ rotr32 18 x ^^^ (x >>> 3)

/-- SHA-256 `σ1`. -/
def smallSigma1 (x : Nat) : Nat := rotr32 17 x ^^^ rotr32 19 x ^^^ (x >>> 10)

/-- The 64 SHA-256 round constants (FIPS 180-4, in decimal). -/
def shaK : List Nat :=
  [1116352408, 1899447441, 3049323471, 3921009573, 961987163, 1508970993,
   2453635748, 2870763221, 3624381080, 310598401, 607225278, 1426881987,
   1925078388, 2162078206, 2614888103, 3248222580, 3835390401, 4022224774,
   264347078, 604807628, 770255983, 1249150122, 1555081692, 1996064986,
   2554220882, 2821834349, 2952996808, 3210313671, 3336571891, 3584528711,
   113926993, 338241895, 666307205, 773529912, 1294757372, 1396182291,
   1695183700, 1986661051, 2177026350, 2456956037, 2730485921, 2820302411,
   3259730800, 3345764771, 3516065817, 3600352804, 4094571909, 275423344,
   430227734, 506948616, 659060556, 883997877, 958139571, 1322822218,
   1537002063, 1747873779, 1955562222, 2024104815, 2227730452, 2361852424,
   2428436474, 2756734187, 3204031479, 3329325298]

/-- Working state of the SHA-256 compression function. -/
structure ShaState where
  a : Nat
  b : Nat
  c : Nat
  d : Nat
  e : Nat
  f : Nat
  g : Nat
  hv : Nat
  deriving DecidableEq, Repr

/-- Initial SHA-256 hash value (FIPS 180-4, in decimal). -/
def shaInit : ShaState :=
  ⟨1779033703, 3144134277, 1013904242, 2773480762,
   1359893119, 2600822924, 528734635, 1541459225⟩

/-- One round of the SHA-256 compression function on `(kᵢ, wᵢ)`. -/
def shaRound (st : ShaState) (kw : Nat × Nat) : ShaState :=
  let t1 := w32 (st.hv + bigSigma1 st.e + shaCh st.e st.f st.g + kw.1 + kw.2)
  let t2 := w32 (bigSigma0 st.a + shaMaj st.a st.b st.c)
  ⟨w32 (t1 + t2), st.a, st.b, st.c, w32 (st.d + t1), st.e, st.f, st.g⟩

/-- Extend a 16-word block by `k` schedule words; the accumulator holds the
schedule in reverse (most recent word first), so `w[t-2]`, `w[t-7]`,
`w[t-15]`, `w[t-16]` are the elements at positions 1, 6, 14, 15. -/
def extendW : Nat → List Nat → List Nat
  | 0, w => w
  | k + 1, w =>
    extendW k (w32 (smallSigma1 (w.getD 1 0) + w.getD 6 0 +
      smallSigma0 (w.getD 14 0) + w.getD 15 0) :: w)

/-- Compress one 16-word block into the running hash state. -/
def shaCompress (hs : ShaState) (block : List Nat) : ShaState :=
  let ws := (extendW 48 block.reverse).reverse
  let st := (shaK.zip ws).foldl shaRound hs
  ⟨w32 (hs.a + st.a), w32 (hs.b + st.b), w32 (hs.c + st.c), w32 (hs.d + st.d),
   w32 (hs.e + st.e), w32 (hs.f + st.f), w32 (hs.g + st.g), w32 (hs.hv + st.hv)⟩

/-- Group bytes into big-endian 32-bit words. -/
def bytesToWords : List Nat → List Nat
  | b0 :: b1 :: b2 :: b3 :: rest =>
    (((b0 * 256 + b1) * 256 + b2) * 256 + b3) :: bytesToWords rest
  | _ => []

/-- Fixed-width big-endian byte encoding. -/
def beBytes : Nat → Nat → List Nat
  | 0, _ => []
  | width + 1, n => beBytes width (n / 256) ++ [n % 256]

/-- SHA-256 padding: `0x80`, zeros to 56 mod 64, 64-bit big-endian bit length. -/
def shaPad (msg : List Nat) : List Nat :=
  msg ++ 128 :: (List.replicate ((119 - msg.length % 64) % 64) 0 ++
    beBytes 8 (8 * msg.length))

/-- Fold the compression function over consecutive 16-word blocks. -/
def shaBlocks : Nat → ShaState → List Nat → ShaState
  | 0, hs, _ => hs
  | fuel + 1, hs, ws =>
    if ws = [] then hs
    else shaBlocks fuel (shaCompress hs (ws.take 16)) (ws.drop 16)

/-- SHA-256 digest (32 bytes) of a byte string, `hashlib.sha256(data).digest()`. -/
def sha256 (msg : List Nat) : List Nat :=
  let ws := bytesToWords (shaPad msg)
  let hf := shaBlocks ws.length shaInit ws
  beBytes 4 hf.a ++ beBytes 4 hf.b ++ beBytes 4 hf.c ++ beBytes 4 hf.d ++
  beBytes 4 hf.e ++ beBytes 4 hf.f ++ beBytes 4 hf.g ++ beBytes 4 hf.hv

theorem length_beBytes (width n : Nat) : (beBytes width n).length = width := by
  induction width generalizing n with
  | zero => rfl
  | succ w ih => simp [beBytes, ih]

theorem beBytes_lt {width n : Nat} : ∀ x ∈ beBytes width n, x < 256 := by
  induction width generalizing n with
  | zero => intro x hx; simp [beBytes] at hx
  | succ w ih =>
    intro x hx
    simp only [beBytes, List.mem_append, List.mem_singleton] at hx
    rcases hx with h | h
    · exact ih _ h
    · subst h; exact Nat.mod_lt _ (by omega)

theorem length_sha256 (msg : List Nat) : (sha256 msg).length = 32 := by
  simp [sha256, length_beBytes]

theorem sha256_lt (msg : List Nat) : ∀ x ∈ sha256 msg, x < 256 := by
  intro x hx
  simp only [sha256, List.mem_append] at hx
  rcases hx with ((((((h | h) | h) | h) | h) | h) | h) | h <;> exact beBytes_lt _ h

/-- FIPS 180-4 test vector: SHA-256 of the empty string. -/
theorem sha256_empty_vector :
    sha256 [] =
      [0xe3, 0xb0, 0xc4, 0x42, 0x98, 0xfc, 0x1c, 0x14, 0x9a, 0xfb, 0xf4, 0xc8,
       0x99, 0x6f, 0xb9, 0x24, 0x27, 0xae, 0x41, 0xe4, 0x64, 0x9b, 0x93, 0x4c,
       0xa4, 0x95, 0x99, 0x1b, 0x78, 0x52, 0xb8, 0x55] := by
  decide

/-- FIPS 180-4 test vector: SHA-256 of `"abc"`. -/
theorem sha256_abc_vector :
    sha256 [0x61, 0x62, 0x63] =
      [0xba, 0x78, 0x16, 0xbf, 0x8f, 0x01, 0xcf, 0xea, 0x41, 0x41, 0x40, 0xde,
       0x5d, 0xae, 0x22, 0x23, 0xb0, 0x03, 0x61, 0xa3, 0x96, 0x17, 0x7a, 0x9c,
       0xb4, 0x10, 0xff, 0x61, 0xf2, 0x00, 0x15, 0xad] := by
  decide

/-! ## Base58 (`pywallet_refactored/crypto/base58.py`)

Encoded strings are `List Char`.  `b58decode` mirrors the source exactly,
including the `ValueError` that `BASE58_ALPHABET.index(char)` raises for a
character outside the alphabet. -/

/-- The fixed Base58 alphabet of `base58.py`. -/
def BASE58_ALPHABET : List Char :=
  "123456789ABCDEFGHJKLMNPQRSTUVWXYZabcdefghijkmnopqrstuvwxyz".toList

/-- `BASE58_ALPHABET.index(char)`: `some` position, or `none` where Python
raises `ValueError`. -/
def b58_index (c : Char) : Option Nat := BASE58_ALPHABET.indexOf? c

/-- `b58encode`: big-integer divmod loop plus one `'1'` per leading zero
byte. -/
def b58encode (data : List Nat) : List Char :=
  let n := from_bytes_big data
  List.replicate (data.takeWhile (fun b => b == 0)).length '1' ++
    (toDigitsLE 58 n n).reverse.map (fun d => BASE58_ALPHABET.getD d '1')

/-- The accumulation loop `for char in encoded: n = n * 58 + index(char)`,
propagating the `ValueError` of a bad character. -/
def b58FoldM : List Char → Nat → Except PyErr Nat
  | [], acc => .ok acc
  | c :: cs, acc =>
    match b58_index c with
    | some i => b58FoldM cs (acc * 58 + i)
    | none => .error .valueError

/-- `b58decode`: fold the digits, re-encode minimally, and prepend one zero
byte per leading `'1'` character. -/
def b58decode (encoded : List Char) : Except PyErr (List Nat) :=
  match b58FoldM encoded 0 with
  | .error e => .error e
  | .ok n =>
    .ok (List.replicate (encoded.takeWhile (fun c => c == '1')).length 0 ++
      int_to_bytes_big n)

/-- `b58encode_check`: append the 4-byte double-SHA256 checksum, then
`b58encode`. -/
def b58encode_check (data : List Nat) : List Char :=
  b58encode (data ++ (sha256 (sha256 data)).take 4)

/-- `b58decode_check`: decode, verify the 4-byte checksum; `ok none`
models the explicit `return None` paths. -/
def b58decode_check (encoded : List Char) : Except PyErr (Option (List Nat)) :=
  match b58decode encoded with
  | .error e => .error e
  | .ok decoded =>
    if decoded.length < 4 then .ok none
    else
      let data := decoded.take (decoded.length - 4)
      let checksum := decoded.drop (decoded.length - 4)
      if checksum = (sha256 (sha256 data)).take 4 then .ok (some data)
      else .ok none

theorem b58_index_getD : ∀ d, d < 58 →
    b58_index (BASE58_ALPHABET.getD d '1') = some d := by
  decide

theorem b58_getD_ne_one : ∀ d, d < 58 → 0 < d →
    BASE58_ALPHABET.getD d '1' ≠ '1' := by
  decide

theorem b58_index_one : b58_index '1' = some 0 := by decide

theorem b58FoldM_ones :
    ∀ (z : Nat) (cs : List Char),
      b58FoldM (List.replicate z '1' ++ cs) 0 = b58FoldM cs 0 := by
  intro z
  induction z with
  | zero => intro cs; rfl
  | succ z ih =>
    intro cs
    simp only [List.replicate_succ, List.cons_append, b58FoldM, b58_index_one]
    exact ih cs

theorem b58FoldM_digits :
    ∀ (ds : List Nat) (acc : Nat), (∀ d ∈ ds, d < 58) →
      b58FoldM (ds.map (fun d => BASE58_ALPHABET.getD d '1')) acc =
        .ok (ds.foldl (fun a d => a * 58 + d) acc) := by
  intro ds
  induction ds with
  | nil => intro acc _; rfl
  | cons d ds ih =>
    intro acc hlt
    have hd : d < 58 := hlt d (by simp)
    simp only [List.map_cons, b58FoldM, b58_index_getD d hd, List.foldl_cons]
    exact ih _ (fun x hx => hlt x (by simp [hx]))

theorem head?_dropWhile {α : Type} (p : α → Bool) :
    ∀ (l : List α) (c : α), (l.dropWhile p).head? = some c → p c = false := by
  intro l
  induction l with
  | nil => intro c h; simp [List.dropWhile] at h
  | cons x xs ih =>
    intro c h
    rw [List.dropWhile_cons] at h
    by_cases hp : p x = true
    · simp only [hp, if_true] at h
      exact ih c h
    · simp only [hp, if_false, List.head?_cons] at h
      injection h with h
      subst h
      simpa using hp

theorem ofDigitsLE_replicate_zero (b : Nat) :
    ∀ z : Nat, ofDigitsLE b (List.replicate z 0) = 0 := by
  intro z
  induction z with
  | zero => rfl
  | succ z ih => simp [List.replicate_succ, ofDigitsLE, ih]

theorem ofDigitsLE_append_zeros (b : Nat) :
    ∀ (xs : List Nat) (z : Nat),
      ofDigitsLE b (xs ++ List.replicate z 0) = ofDigitsLE b xs := by
  intro xs
  induction xs with
  | nil => intro z; simp [ofDigitsLE, ofDigitsLE_replicate_zero]
  | cons x xs ih => intro z; simp [ofDigitsLE, ih]

theorem takeWhile_replicate_append {z : Nat} {l : List Char} (c : Char)
    (hl : ∀ x, l.head? = some x → ¬x = c) :
    List.takeWhile (fun x => x == c) (List.replicate z c ++ l) =
      List.replicate z c := by
  induction z with
  | zero =>
    simp only [List.replicate, List.nil_append]
    cases l with
    | nil => rfl
    | cons x xs =>
      have := hl x rfl
      simp [List.takeWhile_cons, this]
  | succ z ih =>
    simp only [List.replicate_succ, List.cons_append, List.takeWhile_cons,
      beq_self_eq_true, if_true, ih]

theorem b58decode_b58encode (data : List Nat) (hdata : ∀ x ∈ data, x < 256) :
    b58decode (b58encode data) = .ok data := by
  have htw : data.takeWhile (fun b => b == 0) =
      List.replicate (data.takeWhile (fun b => b == 0)).length 0 := by
    apply List.eq_replicate_of_mem
    intro x hx
    simpa using List.mem_takeWhile_imp hx
  set z := (data.takeWhile (fun b => b == 0)).length with hz
  set rest := data.dropWhile (fun b => b == 0) with hrest
  have hdata_eq : data = List.replicate z 0 ++ rest := by
    conv_lhs => rw [← List.takeWhile_append_dropWhile (fun b => b == 0) data]
    rw [← htw]
  have hn : from_bytes_big data = ofDigitsLE 256 data.reverse := by
    have := foldl_base 256 data 0
    simpa [from_bytes_big] using this
  have hrev : data.reverse = rest.reverse ++ List.replicate z 0 := by
    conv_lhs => rw [hdata_eq]
    simp [List.reverse_append, List.reverse_replicate]
  have hn2 : from_bytes_big data = ofDigitsLE 256 rest.reverse := by
    rw [hn, hrev, ofDigitsLE_append_zeros]
  set n := from_bytes_big data with hndef
  have henc : b58encode data =
      List.replicate z '1' ++
        (toDigitsLE 58 n n).reverse.map (fun d => BASE58_ALPHABET.getD d '1') :=
    rfl
  by_cases hre : rest = []
  · have hn0 : n = 0 := by
      rw [hn2, hre]
      simp [ofDigitsLE]
    have henc0 : b58encode data = List.replicate z '1' := by
      rw [henc, hn0, toDigitsLE_zero]
      simp
    have hfold : b58FoldM (b58encode data) 0 = .ok 0 := by
      rw [henc0, ← List.append_nil (List.replicate z '1'), b58FoldM_ones]
      rfl
    have htake : (b58encode data).takeWhile (fun c => c == '1') =
        List.replicate z '1' := by
      rw [henc0, List.takeWhile_replicate]
      simp
    rw [b58decode, hfold, htake]
    rw [hdata_eq, hre]
    simp [int_to_bytes_big, toDigitsLE_zero]
  · have hheadrest : ∀ c, rest.head? = some c → c ≠ 0 := by
      intro c hc h0
      have := head?_dropWhile (fun b => b == 0) data c hc
      rw [h0] at this
      simp at this
    have hrestlt : ∀ x ∈ rest, x < 256 := by
      intro x hx
      apply hdata
      rw [hdata_eq]
      exact List.mem_append_right _ hx
    have hrevne : rest.reverse ≠ [] := by simpa using hre
    have hrevlast : rest.reverse.getLast? ≠ some 0 := by
      rw [List.getLast?_reverse]
      intro hc
      exact hheadrest 0 hc rfl
    have hnpos : 0 < n := by
      rw [hn2]
      exact ofDigitsLE_pos (by norm_num) _ hrevne hrevlast
    have hd58lt : ∀ d ∈ (toDigitsLE 58 n n).reverse, d < 58 := by
      intro d hd
      exact toDigitsLE_lt (by norm_num) n n d (List.mem_reverse.mp hd)
    have hfold : b58FoldM (b58encode data) 0 = .ok n := by
      rw [henc, b58FoldM_ones, b58FoldM_digits _ 0 hd58lt]
      congr 1
      rw [foldl_base 58, List.reverse_reverse]
      simp only [Nat.zero_mul, Nat.zero_add]
      exact ofDigitsLE_toDigitsLE (by norm_num) n n (le_refl n)
    have hbytes : int_to_bytes_big n = rest := by
      rw [int_to_bytes_big]
      have : toDigitsLE 256 n n = rest.reverse := by
        conv_lhs => rw [hn2]
        apply toDigitsLE_ofDigitsLE (by norm_num)
        · intro d hd
          exact hrestlt d (List.mem_reverse.mp hd)
        · exact hrevlast
        · rw [← hn2]
      rw [this, List.reverse_reverse]
    have hdne : toDigitsLE 58 n n ≠ [] := by
      intro hc
      rw [(toDigitsLE_eq_nil_iff n n (le_refl n)).mp hc] at hnpos
      exact Nat.lt_irrefl 0 hnpos
    have hcorehead : ∀ x,
        ((toDigitsLE 58 n n).reverse.map
          (fun d => BASE58_ALPHABET.getD d '1')).head? = some x → ¬x = '1' := by
      intro x hx
      have hlast := List.getLast?_eq_getLast _ hdne
      rw [List.head?_map, List.head?_reverse, hlast, Option.map_some'] at hx
      injection hx with hx
      set d := (toDigitsLE 58 n n).getLast hdne with hd
      have hdne0 : d ≠ 0 := by
        intro h0
        rw [h0] at hlast
        exact toDigitsLE_getLast_ne_zero (by norm_num) n n (le_refl n) hlast
      have hdlt : d < 58 := by
        apply toDigitsLE_lt (b := 58) (by norm_num) n n
        exact List.mem_of_mem_getLast? (by rw [hlast]; rfl)
      rw [← hx]
      exact b58_getD_ne_one d hdlt (Nat.pos_of_ne_zero hdne0)
    have htake : (b58encode data).takeWhile (fun c => c == '1') =
        List.replicate z '1' := by
      rw [henc]
      exact takeWhile_replicate_append '1' hcorehead
    rw [b58decode, hfold, htake, List.length_replicate]
    show Except.ok (List.replicate z 0 ++ int_to_bytes_big n) = Except.ok data
    rw [hbytes, ← hdata_eq]

theorem b58decode_check_b58encode_check (data : List Nat)
    (hdata : ∀ x ∈ data, x < 256) :
    b58decode_check (b58encode_check data) = .ok (some data) := by
  set chk := (sha256 (sha256 data)).take 4 with hchk
  have hchklen : chk.length = 4 := by
    rw [hchk, List.length_take, length_sha256]
    decide
  have hpay : ∀ x ∈ data ++ chk, x < 256 := by
    intro x hx
    rcases List.mem_append.mp hx with h | h
    · exact hdata x h
    · exact sha256_lt _ x (List.mem_of_mem_take h)
  have hdec : b58decode (b58encode_check data) = .ok (data ++ chk) :=
    b58decode_b58encode (data ++ chk) hpay
  have hlen : (data ++ chk).length = data.length + 4 := by
    rw [List.length_append, hchklen]
  have hnotlt : ¬(data ++ chk).length < 4 := by omega
  have hsub : (data ++ chk).length - 4 = data.length := by omega
  simp only [b58decode_check, hdec]
  rw [if_neg hnotlt, hsub, List.take_left, List.drop_left, if_pos hchk]

/-! ## WIF keys (`pywallet_refactored/crypto/keys.py`)

The network parameter dict is passed as the relevant version bytes.
`KeyError` raise sites become distinct `PyErr` constructors. -/

/-- `private_key_to_wif(private_key, compressed, network)`:
Base58Check of `network['wif'] || private_key || (0x01 if compressed)`. -/
def private_key_to_wif (wifVersion : Nat) (private_key : List Nat)
    (compressed : Bool) : List Char :=
  b58encode_check ((wifVersion :: private_key) ++ (if compressed then [1] else []))

/-- `wif_to_private_key(wif, network)`: decode and classify by length; note
the source never checks the trailing byte of a 34-byte decoding. -/
def wif_to_private_key (wifVersion : Nat) (wif : List Char) :
    Except PyErr (List Nat × Bool) :=
  match b58decode_check wif with
  | .error e => .error e
  | .ok none => .error .keyErrorChecksum
  | .ok (some decoded) =>
    match decoded.head? with
    | none => .error .indexError
    | some b0 =>
      if b0 ≠ wifVersion then .error .keyErrorNetwork
      else if decoded.length = 34 then .ok ((decoded.drop 1).dropLast, true)
      else if decoded.length = 33 then .ok (decoded.drop 1, false)
      else .error .keyErrorLength

/-- `is_valid_address(address, network)`: version byte must match
`pubKeyHash` or `scriptHash`; every failure (including exceptions) is
swallowed into `false` by the `try/except`. -/
def is_valid_address (pubKeyHash scriptHash : Nat) (address : List Char) : Bool :=
  match b58decode_check address with
  | .error _ => false
  | .ok none => false
  | .ok (some decoded) =>
    match decoded.head? with
    | none => false
    | some b0 => b0 == pubKeyHash || b0 == scriptHash

theorem b58FoldM_error :
    ∀ (s : List Char) (acc : Nat), (∃ c ∈ s, b58_index c = none) →
      b58FoldM s acc = .error .valueError := by
  intro s
  induction s with
  | nil => intro acc h; simp at h
  | cons c cs ih =>
    intro acc h
    rw [b58FoldM]
    cases hc : b58_index c with
    | none => rfl
    | some i =>
      apply ih
      rcases h with ⟨x, hx, hxnone⟩
      rcases List.mem_cons.mp hx with rfl | hmem
      · rw [hc] at hxnone; exact absurd hxnone (by simp)
      · exact ⟨x, hmem, hxnone⟩

theorem b58decode_error_of_bad_char {s : List Char}
    (h : ∃ c ∈ s, b58_index c = none) : b58decode s = .error .valueError := by
  rw [b58decode, b58FoldM_error s 0 h]

/-! ## Claims C1, C3, C7, C10 -/

/-- C1: for every 32-byte private key `k` and compressed flag, decoding the
WIF encoding of `k` (with the same network version byte) returns exactly
`(k, compressed)`. -/
theorem claim_C1 (k : List Nat) (hk32 : k.length = 32)
    (hkb : ∀ x ∈ k, x < 256) (v : Nat) (hv : v < 256) (compressed : Bool) :
    wif_to_private_key v (private_key_to_wif v k compressed) =
      .ok (k, compressed) := by
  cases compressed with
  | true =>
    have hpay : ∀ x ∈ v :: (k ++ [1]), x < 256 := by
      intro x hx
      rcases List.mem_cons.mp hx with rfl | h
      · exact hv
      · rcases List.mem_append.mp h with h | h
        · exact hkb x h
        · simp at h; omega
    have hdec := b58decode_check_b58encode_check (v :: (k ++ [1])) hpay
    have henc : private_key_to_wif v k true =
        b58encode_check (v :: (k ++ [1])) := by
      simp [private_key_to_wif]
    have hlen : (v :: (k ++ [1])).length = 34 := by simp [hk32]
    rw [wif_to_private_key, henc, hdec]
    simp only [List.head?_cons]
    rw [if_neg (by simp), if_pos hlen]
    simp [List.dropLast_concat]
  | false =>
    have hpay : ∀ x ∈ v :: k, x < 256 := by
      intro x hx
      rcases List.mem_cons.mp hx with rfl | h
      · exact hv
      · exact hkb x h
    have hdec := b58decode_check_b58encode_check (v :: k) hpay
    have henc : private_key_to_wif v k false = b58encode_check (v :: k) := by
      simp [private_key_to_wif]
    have hlen : (v :: k).length = 33 := by simp [hk32]
    rw [wif_to_private_key, henc, hdec]
    simp only [List.head?_cons]
    rw [if_neg (by simp), if_neg (by rw [hlen]; omega), if_pos hlen]
    simp

/-- C1 witness: concrete round trip at the all-sevens key, version `0x80`. -/
theorem claim_C1_witness :
    wif_to_private_key 128 (private_key_to_wif 128 (List.replicate 32 7) true) =
      .ok (List.replicate 32 7, true) :=
  claim_C1 (List.replicate 32 7) (by decide) (by decide) 128 (by decide) true

/-- The concrete Base58Check encoding of the single byte `0x00`. -/
def c3Enc : List Char := ['1', 'W', 'h', '4', 'b', 'h']

set_option maxHeartbeats 2000000 in
theorem c3Enc_eq : b58encode_check [0] = c3Enc := by decide

/-- `(sha256 (sha256 [0])).take 4`, precomputed. -/
def chkOfZero : List Nat := [20, 6, 224, 88]

/-- `(sha256 (sha256 [])).take 4`, precomputed. -/
def chkOfNil : List Nat := [93, 246, 224, 226]

set_option maxHeartbeats 2000000 in
theorem chkOfZero_eq : (sha256 (sha256 [0])).take 4 = chkOfZero := by decide

set_option maxHeartbeats 2000000 in
theorem chkOfNil_eq : (sha256 (sha256 [])).take 4 = chkOfNil := by decide

/-- Checks that a string is rejected by `b58decode_check` with `None`: it
decodes, and its length is short or its stored checksum differs from the
recomputed one (compared against the precomputed digests for the payloads
`[]` and `[0]`, the only ones reachable in the `c3CorruptionCheck` search;
any other payload conservatively fails the check). -/
def c3Reject (s : List Char) : Bool :=
  match b58decode s with
  | .error _ => false
  | .ok d =>
    if d.length < 4 then true
    else if d.take (d.length - 4) = [] then d.drop (d.length - 4) != chkOfNil
    else if d.take (d.length - 4) = [0] then d.drop (d.length - 4) != chkOfZero
    else false

theorem c3Reject_none (s : List Char) (h : c3Reject s = true) :
    b58decode_check s = .ok none := by
  rw [c3Reject] at h
  rw [b58decode_check]
  cases hdec : b58decode s with
  | error e => rw [hdec] at h; simp at h
  | ok d =>
    rw [hdec] at h
    simp only [] at h ⊢
    by_cases hlen : d.length < 4
    · rw [if_pos hlen]
    · rw [if_neg hlen] at h ⊢
      by_cases hnil : d.take (d.length - 4) = []
      · rw [if_pos hnil] at h
        have hcond :
            ¬d.drop (d.length - 4) =
              (sha256 (sha256 (d.take (d.length - 4)))).take 4 := by
          rw [hnil, chkOfNil_eq]
          simpa using h
        rw [if_neg hcond]
      · rw [if_neg hnil] at h
        by_cases hzero : d.take (d.length - 4) = [0]
        · rw [if_pos hzero] at h
          have hcond :
              ¬d.drop (d.length - 4) =
                (sha256 (sha256 (d.take (d.length - 4)))).take 4 := by
            rw [hzero, chkOfZero_eq]
            simpa using h
          rw [if_neg hcond]
        · rw [if_neg hzero] at h
          simp at h

/-- Exhaustive check: every corruption of one of the last four characters of
`c3Enc` to a different alphabet character is rejected. -/
def c3CorruptionCheck : Bool :=
  (List.range 4).all (fun j =>
    BASE58_ALPHABET.all (fun c =>
      c == c3Enc.getD (5 - j) ' ' || c3Reject (c3Enc.set (5 - j) c)))

/-- C3 counterexample: corrupting the last character of the checksum tail of
`b58encode_check [0]` to `'0'` (a byte outside the Base58 alphabet) makes
`b58decode_check` raise `ValueError`, not return `None`. -/
theorem claim_C3_cex :
    b58decode_check
      ((b58encode_check [0]).set ((b58encode_check [0]).length - 1) '0') =
      .error .valueError := by
  rw [c3Enc_eq]
  decide

set_option maxHeartbeats 4000000 in
/-- C3 (amended): the round trip returns `Some b` for every byte string; a
checksum-tail byte corrupted to a character outside the Base58 alphabet
makes `b58decode_check` raise `ValueError` rather than return `None`;
corruption to a different alphabet character is still detected with `None`
(checked exhaustively for the last four characters of the encoding of
`b = b'\x00'`). -/
theorem claim_C3 :
    (∀ data, (∀ x ∈ data, x < 256) →
      b58decode_check (b58encode_check data) = .ok (some data)) ∧
    (∀ s, (∃ c ∈ s, b58_index c = none) →
      b58decode_check s = .error .valueError) ∧
    (∀ j, j < 4 → ∀ c ∈ BASE58_ALPHABET, ¬c = c3Enc.getD (5 - j) ' ' →
      b58decode_check (c3Enc.set (5 - j) c) = .ok none) := by
  refine ⟨fun data h => b58decode_check_b58encode_check data h, ?_, ?_⟩
  · intro s h
    rw [b58decode_check, b58decode_error_of_bad_char h]
  · intro j hj c hc hne
    apply c3Reject_none
    have hall : c3CorruptionCheck = true := by decide
    rw [c3CorruptionCheck] at hall
    rw [List.all_eq_true] at hall
    have h1 := hall j (by simpa using List.mem_range.mpr hj)
    rw [List.all_eq_true] at h1
    have h2 := h1 c hc
    rcases Bool.or_eq_true_iff.mp h2 with h3 | h3
    · exact absurd (by simpa using h3) hne
    · exact h3

/-- C3 witness: the round trip at the concrete byte string `[0, 255, 1]`, the
raising decode at the concrete non-alphabet string `"0"`, and a concrete
alphabet-corruption of the final checksum character rejected with `None`. -/
theorem claim_C3_witness :
    b58decode_check (b58encode_check [0, 255, 1]) = .ok (some [0, 255, 1]) ∧
    b58decode_check ['0'] = .error .valueError ∧
    b58decode_check (c3Enc.set 5 'x') = .ok none :=
  ⟨claim_C3.1 [0, 255, 1] (by decide),
   claim_C3.2.1 ['0'] (by decide),
   by
     have := claim_C3.2.2 0 (by decide) 'x' (by decide) (by decide)
     simpa using this⟩

/-- C7 counterexample: a WIF whose decoded payload is 34 bytes with trailing
byte `0x55` (not `0x01`) is accepted as a compressed key instead of being
rejected. -/
theorem claim_C7_cex :
    wif_to_private_key 128
      (b58encode_check (128 :: (List.replicate 32 9 ++ [0x55]))) =
      .ok (List.replicate 32 9, true) := by
  have hpay : ∀ x ∈ 128 :: (List.replicate 32 9 ++ [0x55]), x < 256 := by
    decide
  have hdec := b58decode_check_b58encode_check _ hpay
  rw [wif_to_private_key, hdec]
  simp only [List.head?_cons]
  rw [if_neg (by simp), if_pos (by simp)]
  simp [List.dropLast_concat]

set_option maxHeartbeats 2000000 in
/-- C7 (amended): after Base58Check decoding, a wrong leading version byte
fails with the wrong-network error and a payload length other than 32 or 33
fails with the invalid-length error, but a 33-byte payload (34 bytes with
version) is decoded as compressed with its trailing byte stripped and NOT
validated: any trailing byte is accepted.  A checksum failure yields the
invalid-checksum error. -/
theorem claim_C7 :
    (∀ v k, v < 256 → (∀ x ∈ k, x < 256) → k.length = 33 →
      wif_to_private_key v (b58encode_check (v :: k)) =
        .ok (k.dropLast, true)) ∧
    (∀ v k, v < 256 → (∀ x ∈ k, x < 256) → k.length = 32 →
      wif_to_private_key v (b58encode_check (v :: k)) = .ok (k, false)) ∧
    (∀ v w k, v < 256 → (∀ x ∈ k, x < 256) → ¬v = w →
      wif_to_private_key w (b58encode_check (v :: k)) =
        .error .keyErrorNetwork) ∧
    (∀ v k, v < 256 → (∀ x ∈ k, x < 256) → ¬k.length = 32 → ¬k.length = 33 →
      wif_to_private_key v (b58encode_check (v :: k)) =
        .error .keyErrorLength) ∧
    wif_to_private_key 128 ['1', '1', '1', '1', '1'] =
      .error .keyErrorChecksum := by
  have hcons : ∀ (v : Nat) (k : List Nat), v < 256 → (∀ x ∈ k, x < 256) →
      b58decode_check (b58encode_check (v :: k)) = .ok (some (v :: k)) := by
    intro v k hv hk
    apply b58decode_check_b58encode_check
    intro x hx
    rcases List.mem_cons.mp hx with rfl | h
    · exact hv
    · exact hk x h
  refine ⟨?_, ?_, ?_, ?_, ?_⟩
  · intro v k hv hk hlen
    rw [wif_to_private_key, hcons v k hv hk]
    simp only [List.head?_cons]
    rw [if_neg (by simp), if_pos (by simp [hlen])]
    cases k using List.reverseRecOn with
    | nil => simp at hlen
    | append_singleton ks x _ => simp [List.dropLast_concat]
  · intro v k hv hk hlen
    rw [wif_to_private_key, hcons v k hv hk]
    simp only [List.head?_cons]
    rw [if_neg (by simp), if_neg (by simp [hlen]), if_pos (by simp [hlen])]
    simp
  · intro v w k hv hk hvw
    rw [wif_to_private_key, hcons v k hv hk]
    simp only [List.head?_cons]
    rw [if_pos hvw]
  · intro v k hv hk h32 h33
    rw [wif_to_private_key, hcons v k hv hk]
    simp only [List.head?_cons]
    rw [if_neg (by simp), if_neg (by simp [h33]), if_neg (by simp [h32])]
  · decide

/-- C7 witness: the amended behaviour at concrete keys for each branch. -/
theorem claim_C7_witness :
    wif_to_private_key 128 (b58encode_check (128 :: List.replicate 33 1)) =
      .ok ((List.replicate 33 1).dropLast, true) ∧
    wif_to_private_key 128 (b58encode_check (128 :: List.replicate 32 2)) =
      .ok (List.replicate 32 2, false) ∧
    wif_to_private_key 0 (b58encode_check (128 :: List.replicate 32 3)) =
      .error .keyErrorNetwork ∧
    wif_to_private_key 128 (b58encode_check (128 :: List.replicate 31 4)) =
      .error .keyErrorLength :=
  ⟨claim_C7.1 128 (List.replicate 33 1) (by decide) (by decide) (by decide),
   claim_C7.2.1 128 (List.replicate 32 2) (by decide) (by decide) (by decide),
   claim_C7.2.2.1 128 0 (List.replicate 32 3) (by decide) (by decide)
     (by decide),
   claim_C7.2.2.2.1 128 (List.replicate 31 4) (by decide) (by decide)
     (by decide) (by decide)⟩

/-- C10: `b58decode` raises `ValueError` on any input containing a character
outside the Base58 alphabet (so `b58decode_check` propagates the exception
rather than returning `None`); `b58decode_check` returns `None` only when the
input decodes and its decoded form is under 4 bytes or its checksum
mismatches; and `is_valid_address` still returns `false` on a bad-character
input because its `try/except` swallows the exception. -/
theorem claim_C10 :
    (∀ s, (∃ c ∈ s, b58_index c = none) → b58decode s = .error .valueError) ∧
    (∀ s, b58decode_check s = .ok none →
      ∃ d, b58decode s = .ok d ∧
        (d.length < 4 ∨
          ¬d.drop (d.length - 4) =
            (sha256 (sha256 (d.take (d.length - 4)))).take 4)) ∧
    (∀ s ph sh, (∃ c ∈ s, b58_index c = none) →
      is_valid_address ph sh s = false) := by
  refine ⟨fun s h => b58decode_error_of_bad_char h, ?_, ?_⟩
  · intro s h
    rw [b58decode_check] at h
    cases hdec : b58decode s with
    | error e => rw [hdec] at h; simp at h
    | ok d =>
      rw [hdec] at h
      simp only [] at h
      refine ⟨d, rfl, ?_⟩
      by_cases hlen : d.length < 4
      · exact Or.inl hlen
      · rw [if_neg hlen] at h
        right
        intro hchk
        rw [if_pos hchk] at h
        simp at h
  · intro s ph sh h
    have hdc : b58decode_check s = .error .valueError := by
      rw [b58decode_check, b58decode_error_of_bad_char h]
    rw [is_valid_address, hdc]

set_option maxHeartbeats 2000000 in
/-- C10 witness: the character `'O'` is outside the alphabet, so decoding
raises and address validation returns `false`; and the all-ones string
decodes but fails its checksum, giving `None` through the documented path. -/
theorem claim_C10_witness :
    b58decode ['O'] = .error .valueError ∧
    is_valid_address 0 5 ['O'] = false ∧
    ∃ d, b58decode ['1', '1', '1', '1'] = .ok d ∧
      (d.length < 4 ∨
        ¬d.drop (d.length - 4) =
          (sha256 (sha256 (d.take (d.length - 4)))).take 4) :=
  ⟨claim_C10.1 ['O'] (by decide),
   claim_C10.2.2 ['O'] 0 5 (by decide),
   claim_C10.2.1 ['1', '1', '1', '1'] (by decide)⟩

/-! ## AES-256-CBC decryption (`pywallet_refactored/crypto/aes.py`)

The AES block cipher itself is the external crypto library
(PyCryptodome / cryptography); it is modelled as an explicit parameter
`blockDec : List Nat → List Nat → List Nat` mapping a key and a 16-byte
ciphertext block to the decrypted block (for each key, real AES-256 is such
a function, a permutation of the blocks).  Everything the repository's own
code does around that call — IV splitting, CBC chaining, input validation
and PKCS#7 unpadding — is embedded from the source. -/

/-- Byte-wise XOR, the CBC chaining step of the library cipher. -/
def xorBytes (xs ys : List Nat) : List Nat :=
  List.zipWith (fun a b => a ^^^ b) xs ys

/-- CBC-mode decryption: block `i` decrypts to
`blockDec(cᵢ) XOR cᵢ₋₁` with the IV before the first block (the library's
`cipher.decrypt` for `MODE_CBC`); fuel is the ciphertext length. -/
def cbc_decrypt (blockDec : List Nat → List Nat) :
    Nat → List Nat → List Nat → List Nat
  | 0, _, _ => []
  | fuel + 1, prev, ct =>
    if ct = [] then []
    else
      xorBytes (blockDec (ct.take 16)) prev ++
        cbc_decrypt blockDec fuel (ct.take 16) (ct.drop 16)

/-- `decrypt_aes(encrypted_data, key)`: split off the 16-byte IV, CBC
decrypt, then remove PKCS#7 padding.  The padding check of the source is
only `if pad_length > 16: raise ValueError("Invalid padding")`, and
`decrypted_data[:-pad_length]` with `pad_length == 0` is the empty slice. -/
def decrypt_aes (blockDec : List Nat → List Nat → List Nat)
    (key encrypted_data : List Nat) : Except PyErr (List Nat) :=
  if ¬key.length = 32 then .error .valueError
  else if encrypted_data.length < 16 then .error .valueError
  else
    let iv := encrypted_data.take 16
    let ct := encrypted_data.drop 16
    if ¬ct.length % 16 = 0 then .error .valueError
    else
      let decrypted := cbc_decrypt (blockDec key) ct.length iv ct
      match decrypted.getLast? with
      | none => .error .indexError
      | some pad_length =>
        if pad_length > 16 then .error .valueError
        else
          .ok (if pad_length = 0 then []
               else decrypted.take (decrypted.length - pad_length))

/-- Strict PKCS#7 validity of a decrypted buffer, as the spec describes it:
the last byte `p` is in `[1,16]` and the last `p` bytes all equal `p`. -/
def strictPkcs7 (decrypted : List Nat) : Prop :=
  ∃ p, decrypted.getLast? = some p ∧ 1 ≤ p ∧ p ≤ 16 ∧
    decrypted.drop (decrypted.length - p) = List.replicate p p

/-- C2 counterexample: with the block cipher instantiated as the identity
permutation, key of 32 zero bytes, zero IV and a single ciphertext block
whose CBC decryption ends in the byte `0`, `decrypt_aes` succeeds (returning
the empty byte string) even though the padding byte `0` is outside `[1,16]`,
so the strict PKCS#7 validation the claim describes does not happen. -/
theorem claim_C2_cex :
    decrypt_aes (fun _ b => b) (List.replicate 32 0)
      (List.replicate 16 0 ++ (List.replicate 15 170 ++ [0])) = .ok [] ∧
    ¬strictPkcs7 (List.replicate 15 170 ++ [0]) := by
  constructor
  · decide
  · intro ⟨p, hp, h1, _, _⟩
    rw [List.getLast?_concat] at hp
    injection hp with hp
    omega

/-- C2 (amended): `decrypt_aes` checks only an upper bound on the final
byte: after CBC decryption to plaintext `pt` with final byte `p`, it fails
with `ValueError` exactly when `p > 16`, and otherwise succeeds without
inspecting the trailing bytes; `p = 0` is accepted and yields the empty
byte string, and the result is `pt` truncated by `p` bytes. -/
theorem claim_C2 (blockDec : List Nat → List Nat → List Nat)
    (key data : List Nat)
    (hkey : key.length = 32) (hlen : 32 ≤ data.length)
    (hmod : data.length % 16 = 0) :
    ∀ p, (cbc_decrypt (blockDec key) (data.drop 16).length (data.take 16)
          (data.drop 16)).getLast? = some p →
      (p ≤ 16 → decrypt_aes blockDec key data =
        .ok (if p = 0 then []
             else (cbc_decrypt (blockDec key) (data.drop 16).length
                (data.take 16) (data.drop 16)).take
               ((cbc_decrypt (blockDec key) (data.drop 16).length
                 (data.take 16) (data.drop 16)).length - p))) ∧
      (16 < p → decrypt_aes blockDec key data = .error .valueError) := by
  intro p hp
  have hnotlt : ¬data.length < 16 := by omega
  constructor
  · intro hle
    rw [decrypt_aes, if_neg (by simp [hkey]), if_neg (by simp [hnotlt]),
      if_neg (by simp [List.length_drop]; omega)]
    simp only [hp]
    rw [if_neg (by omega)]
  · intro hgt
    rw [decrypt_aes, if_neg (by simp [hkey]), if_neg (by simp [hnotlt]),
      if_neg (by simp [List.length_drop]; omega)]
    simp only [hp]
    rw [if_pos hgt]

/-- C2 witness: a concrete cipher whose blocks decrypt to sixteen `7` bytes;
the final byte `7` is accepted and the output is the plaintext truncated by
7 bytes. -/
theorem claim_C2_witness :
    decrypt_aes (fun _ _ => List.replicate 16 7) (List.replicate 32 0)
      (List.replicate 32 0) = .ok (List.replicate 9 7) := by
  have h := (claim_C2 (fun _ _ => List.replicate 16 7)
    (List.replicate 32 0) (List.replicate 32 0)
    (by decide) (by decide) (by decide)) 7 (by decide)
  exact (h.1 (by decide)).trans (by decide)

/-! ## Brute-force verifier (`wallet_brute_force.py`)

`decrypt_aes` there uses a fixed zero IV and performs no unpadding; the
library raises on a bad key size or a ciphertext that is not a multiple of
the block size.  `derive_key` (PBKDF2-HMAC-SHA512 of hashlib) is an external
primitive, modelled as the parameter `deriveKeyF`. -/

/-- `wallet_brute_force.decrypt_aes(encrypted_data, key)`: zero IV, raw CBC
decryption, library errors for invalid key or data sizes. -/
def bf_decrypt_aes (blockDec : List Nat → List Nat → List Nat)
    (key data : List Nat) : Except PyErr (List Nat) :=
  if ¬(key.length = 16 ∨ key.length = 24 ∨ key.length = 32) then
    .error .valueError
  else if ¬data.length % 16 = 0 then .error .valueError
  else .ok (cbc_decrypt (blockDec key) data.length (List.replicate 16 0) data)

/-- The body of `check_password` before its blanket `except Exception`:
derive the key, decrypt, and run the fast validity checks in source order
(padding byte in `[1,16]`, unpadded length 32, padding bytes match, not all
zero, at least 3 distinct values among the first 8 bytes). -/
def check_passwordE (blockDec : List Nat → List Nat → List Nat)
    (deriveKeyF : List Nat → List Nat → Nat → List Nat)
    (password encrypted_key salt : List Nat) (iterations : Nat) :
    Except PyErr Bool :=
  let derived_key := deriveKeyF password salt iterations
  match bf_decrypt_aes blockDec derived_key encrypted_key with
  | .error e => .error e
  | .ok decrypted =>
    match decrypted.getLast? with
    | none => .error .indexError
    | some padding_byte =>
      if ¬(1 ≤ padding_byte ∧ padding_byte ≤ 16) then .ok false
      else if ¬decrypted.length - padding_byte = 32 then .ok false
      else if ¬decrypted.drop (decrypted.length - padding_byte) =
          List.replicate padding_byte padding_byte then .ok false
      else
        let unpadded := decrypted.take (decrypted.length - padding_byte)
        if unpadded.all (fun x => x == 0) then .ok false
        else if (unpadded.take 8).dedup.length < 3 then .ok false
        else .ok true

/-- `check_password(password, encrypted_key, salt, iterations)`: the whole
body is wrapped in `try: ... except Exception: return False, password`. -/
def check_password (blockDec : List Nat → List Nat → List Nat)
    (deriveKeyF : List Nat → List Nat → Nat → List Nat)
    (password encrypted_key salt : List Nat) (iterations : Nat) :
    Bool × List Nat :=
  match check_passwordE blockDec deriveKeyF password encrypted_key salt
      iterations with
  | .ok b => (b, password)
  | .error _ => (false, password)

/-- C9: `check_password` is total — for every cipher, key-derivation
function and input it returns a pair whose second component is the password,
the first component being a boolean; and every internal failure of its body
(wrong key size, bad ciphertext length, indexing an empty plaintext) is
swallowed into `(false, password)` rather than propagated. -/
theorem claim_C9 (blockDec : List Nat → List Nat → List Nat)
    (deriveKeyF : List Nat → List Nat → Nat → List Nat)
    (password encrypted_key salt : List Nat) (iterations : Nat) :
    (check_password blockDec deriveKeyF password encrypted_key salt
        iterations).2 = password ∧
    (check_password blockDec deriveKeyF password encrypted_key salt
        iterations = (true, password) ∨
     check_password blockDec deriveKeyF password encrypted_key salt
        iterations = (false, password)) ∧
    (∀ e, check_passwordE blockDec deriveKeyF password encrypted_key salt
        iterations = .error e →
      check_password blockDec deriveKeyF password encrypted_key salt
        iterations = (false, password)) := by
  rw [check_password]
  cases hE : check_passwordE blockDec deriveKeyF password encrypted_key salt
      iterations with
  | ok b =>
    refine ⟨rfl, ?_, ?_⟩
    · cases b
      · right; rfl
      · left; rfl
    · intro e he
      simp at he
  | error e => exact ⟨rfl, Or.inr rfl, fun e' _ => rfl⟩

/-- C9 witness: a one-byte ciphertext makes the library decrypt call raise,
and `check_password` returns `(false, password)` for it. -/
theorem claim_C9_witness :
    check_password (fun _ b => b) (fun _ _ _ => List.replicate 32 0)
      [7] [1] [] 1 = (false, [7]) :=
  (claim_C9 (fun _ b => b) (fun _ _ _ => List.replicate 32 0)
    [7] [1] [] 1).2.2 .valueError (by decide)

/-! ## BCDataStream (`pywallet_refactored/utils/datastream.py`)

The buffer is a byte list plus a read cursor.  `read_bytes` is Python
slicing: it clamps instead of failing, and the `except IndexError` branch in
the source is unreachable because slicing a bytes object never raises. -/

/-- The parse state of `BCDataStream`. -/
structure BCDataStream where
  input : List Nat
  read_cursor : Nat
  deriving DecidableEq, Repr

/-- `read_bytes(length)`: `self.input[read_cursor : read_cursor + length]`,
then advance the cursor by `length` — Python slice semantics, which clamp to
the end of the buffer and never raise. -/
def read_bytes (st : BCDataStream) (length : Nat) : List Nat × BCDataStream :=
  ((st.input.drop st.read_cursor).take length,
   { st with read_cursor := st.read_cursor + length })

/-- Little-endian unsigned value of a byte list (`struct.unpack('<..')`). -/
def leUInt (bs : List Nat) : Nat :=
  bs.foldr (fun b acc => b + 256 * acc) 0

/-- `read_uint16`: `struct.unpack('<H', ...)` raises `struct.error` when the
slice is shorter than 2 bytes. -/
def read_uint16 (st : BCDataStream) : Except PyErr (Nat × BCDataStream) :=
  let (bs, st') := read_bytes st 2
  if bs.length = 2 then .ok (leUInt bs, st') else .error .structError

/-- `read_uint32`. -/
def read_uint32 (st : BCDataStream) : Except PyErr (Nat × BCDataStream) :=
  let (bs, st') := read_bytes st 4
  if bs.length = 4 then .ok (leUInt bs, st') else .error .structError

/-- `read_uint64`. -/
def read_uint64 (st : BCDataStream) : Except PyErr (Nat × BCDataStream) :=
  let (bs, st') := read_bytes st 8
  if bs.length = 8 then .ok (leUInt bs, st') else .error .structError

/-- `read_compact_size`: `self.input[self.read_cursor]` (integer indexing,
which does raise `IndexError` past the end), then the 253/254/255 escapes. -/
def read_compact_size (st : BCDataStream) : Except PyErr (Nat × BCDataStream) :=
  match st.input[st.read_cursor]? with
  | none => .error .indexError
  | some size0 =>
    let st1 : BCDataStream := { st with read_cursor := st.read_cursor + 1 }
    if size0 = 253 then read_uint16 st1
    else if size0 = 254 then read_uint32 st1
    else if size0 = 255 then read_uint64 st1
    else .ok (size0, st1)

/-- C8: `read_bytes` never fails: for every buffer, cursor and requested
length it returns the clamped slice and advances the cursor, so a request
past the end of the buffer silently yields fewer than `n` bytes (here 2 of
5) instead of an out-of-bounds error — the `except IndexError` branch of
the source is dead code. -/
theorem claim_C8 :
    (read_bytes ⟨[1, 2], 0⟩ 5).1 = [1, 2] ∧
    (read_bytes ⟨[1, 2], 0⟩ 5).1.length = 2 ∧
    (read_bytes ⟨[1, 2], 0⟩ 5).2.read_cursor = 5 ∧
    (∀ st n, (read_bytes st n).1 = (st.input.drop st.read_cursor).take n ∧
      (read_bytes st n).2.read_cursor = st.read_cursor + n) :=
  ⟨by decide, by decide, by decide, fun st n => ⟨rfl, rfl⟩⟩

/-! ## Wallet database (`pywallet_refactored/db/wallet.py`)

The Berkeley DB cursor is a list of `(key, value)` byte pairs.  Only the
three key-material branches of `_read_records` (`mkey`, `ckey`, `key`) are
modelled; the remaining record types (`pool`, `name`, tx, `version`, ...)
never touch `keys`/`ckey`/`mkey` and are no-ops here.  `hashlib`'s
RIPEMD-160 is an external primitive, passed as the parameter `ripemd160`. -/

/-- The master-key dict built at wallet.py lines 333-340 (field names
`nID`, `encrypted_key`, `salt`, `method`, `iterations`, `otherParams`). -/
structure MasterKeyRec where
  nID : Nat
  encrypted_key : List Nat
  salt : List Nat
  method : Nat
  iterations : Nat
  other_params : List Nat
  deriving DecidableEq, Repr

/-- A `ckey` dict as `_read_records` stores it: field names `pubkey` and
`encrypted_privkey` (lines 360-366) — not the `public_key` /
`encrypted_private_key` names that `_decrypt_keys` later looks up. -/
structure CKeyRec where
  pubkey : List Nat
  encrypted_privkey : List Nat
  compressed : Bool
  addr : List Char
  deriving DecidableEq, Repr

/-- A plaintext key dict (lines 387-395). -/
structure KeyRec where
  pubkey : List Nat
  hexsec : List Nat
  sec : List Char
  created : Nat
  compressed : Bool
  addr : List Char
  deriving DecidableEq, Repr

/-- The key-material part of `json_db`. -/
structure JsonDb where
  keys : List KeyRec
  ckey : List CKeyRec
  mkey : Option MasterKeyRec
  deriving DecidableEq, Repr

/-- `hash160`: RIPEMD-160 of SHA-256, with the library RIPEMD-160 passed
in. -/
def hash160 (ripemd160 : List Nat → List Nat) (data : List Nat) : List Nat :=
  ripemd160 (sha256 data)

/-- `public_key_to_address(public_key, network)`. -/
def public_key_to_address (ripemd160 : List Nat → List Nat)
    (pubKeyHash : Nat) (public_key : List Nat) : List Char :=
  let vh160 := pubKeyHash :: hash160 ripemd160 public_key
  b58encode (vh160 ++ (sha256 (sha256 vh160)).take 4)

/-- `binascii.hexlify`: ASCII bytes of the lowercase hex expansion. -/
def hexlify (l : List Nat) : List Nat :=
  l.flatMap (fun b =>
    [(if b / 16 % 16 < 10 then 48 + b / 16 % 16 else 87 + b / 16 % 16),
     (if b % 16 < 10 then 48 + b % 16 else 87 + b % 16)])

/-- The `mkey` branch of `_read_records` (lines 324-342): `nID` is the first
byte of `kds.read_bytes(4)`, then length-prefixed fields from the value. -/
def parse_mkey (key value : List Nat) : Except PyErr MasterKeyRec := do
  let (nIDb, _) := read_bytes ⟨key, 0⟩ 4
  let nID ← match nIDb.head? with
    | none => Except.error PyErr.indexError
    | some x => Except.ok x
  let (sz1, vds1) ← read_compact_size ⟨value, 0⟩
  let (ek, vds2) := read_bytes vds1 sz1
  let (sz2, vds3) ← read_compact_size vds2
  let (salt, vds4) := read_bytes vds3 sz2
  let (method, vds5) ← read_uint32 vds4
  let (iterations, vds6) ← read_uint32 vds5
  let (sz3, vds7) ← read_compact_size vds6
  let (op, _) := read_bytes vds7 sz3
  return ⟨nID, ek, salt, method, iterations, op⟩

/-- The `ckey` branch (lines 344-371); its body is wrapped in `try`. -/
def parse_ckey (ripemd160 : List Nat → List Nat) (pubKeyHash : Nat)
    (key value : List Nat) : Except PyErr CKeyRec := do
  let (_, kds1) := read_bytes ⟨key, 0⟩ 4
  let (szk, kds2) ← read_compact_size kds1
  let (public_key, _) := read_bytes kds2 szk
  let (szv, vds1) ← read_compact_size ⟨value, 0⟩
  let (encrypted_private_key, _) := read_bytes vds1 szv
  let b0 ← match public_key.head? with
    | none => Except.error PyErr.indexError
    | some x => Except.ok x
  return ⟨public_key, encrypted_private_key, b0 != 4,
    public_key_to_address ripemd160 pubKeyHash (hexlify public_key)⟩

/-- The `key` branch (lines 373-398); note the source reads the compact size
from position 0 of the record key without skipping the 4-byte type tag, and
the branch is not wrapped in `try`, so its errors propagate. -/
def parse_key (ripemd160 : List Nat → List Nat) (pubKeyHash wifVersion : Nat)
    (key value : List Nat) : Except PyErr KeyRec := do
  let (szk, kds1) ← read_compact_size ⟨key, 0⟩
  let (public_key, _) := read_bytes kds1 szk
  let (_, vds1) ← read_uint32 ⟨value, 0⟩
  let (created_time, vds2) ← read_uint32 vds1
  let (private_key, _) := read_bytes vds2 32
  let b0 ← match public_key.head? with
    | none => Except.error PyErr.indexError
    | some x => Except.ok x
  return ⟨public_key, private_key,
    private_key_to_wif wifVersion private_key (b0 != 4), created_time,
    b0 != 4, public_key_to_address ripemd160 pubKeyHash (hexlify public_key)⟩

/-- One iteration of the `_read_records` dispatch: classification is by the
hex prefix of the first bytes of the record key (`"046d6b65"` = `\x04mke`,
`"04636b65"` = `\x04cke`, `"046b65"` = `\x04ke`). -/
def record_step (ripemd160 : List Nat → List Nat)
    (pubKeyHash wifVersion : Nat) (db : JsonDb) (key value : List Nat) :
    Except PyErr JsonDb :=
  if key.take 4 = [4, 109, 107, 101] then
    match parse_mkey key value with
    | .error e => .error e
    | .ok m => .ok { db with mkey := some m }
  else if key.take 4 = [4, 99, 107, 101] then
    match parse_ckey ripemd160 pubKeyHash key value with
    | .error _ => .ok db
    | .ok c => .ok { db with ckey := db.ckey ++ [c] }
  else if key.take 3 = [4, 107, 101] then
    match parse_key ripemd160 pubKeyHash wifVersion key value with
    | .error e => .error e
    | .ok k => .ok { db with keys := db.keys ++ [k] }
  else .ok db

/-- `_read_records`: fold the dispatch over the cursor stream; the loop
breaks before parsing once 10000 records have been read, so at most the
first 9999 records are parsed. -/
def read_records (ripemd160 : List Nat → List Nat)
    (pubKeyHash wifVersion : Nat) (records : List (List Nat × List Nat)) :
    Except PyErr JsonDb :=
  (records.take 9999).foldlM
    (fun db kv => record_step ripemd160 pubKeyHash wifVersion db kv.1 kv.2)
    ⟨[], [], none⟩

/-- `_decrypt_keys(passphrase)`: with no master key it warns and returns;
otherwise `mkey = self.json_db['mkey'][0]` indexes the field dict stored by
`_read_records` with the integer `0`, raising `KeyError: 0`, uncaught inside
`_decrypt_keys`.  Everything after that line (master-key decryption and the
per-`ckey` loop, lines 650-699) is unreachable — and that dead loop reads
the fields `encrypted_private_key` / `public_key`, which `_read_records`
never stores (it stores `encrypted_privkey` / `pubkey`). -/
def decrypt_keys (db : JsonDb) : Except PyErr JsonDb :=
  match db.mkey with
  | none => .ok db
  | some _ => .error .keyErrorZero

/-- `read_wallet(passphrase)`: read records, then decrypt if a passphrase
was supplied and a master key exists; any exception is re-raised as
`WalletDBError` by the blanket handler. -/
def read_wallet (ripemd160 : List Nat → List Nat)
    (pubKeyHash wifVersion : Nat) (records : List (List Nat × List Nat))
    (passphrase : List Char) : Except PyErr JsonDb :=
  match read_records ripemd160 pubKeyHash wifVersion records with
  | .error _ => .error .walletDBError
  | .ok db =>
    if ¬passphrase = [] ∧ ¬db.mkey = none then
      match decrypt_keys db with
      | .error _ => .error .walletDBError
      | .ok db' => .ok db'
    else .ok db

/-- C5: whenever the records parse and contain a master key and a passphrase
is supplied, `read_wallet` raises `WalletDBError` — `_decrypt_keys` dies on
`json_db['mkey'][0]` (`KeyError: 0`) before any per-key decryption, so no
encrypted key is ever decrypted and no plaintext key is ever materialized. -/
theorem claim_C5 (ripemd160 : List Nat → List Nat)
    (pubKeyHash wifVersion : Nat) (records : List (List Nat × List Nat))
    (passphrase : List Char) (db : JsonDb)
    (hread : read_records ripemd160 pubKeyHash wifVersion records = .ok db)
    (hmkey : ¬db.mkey = none) (hpass : ¬passphrase = []) :
    read_wallet ripemd160 pubKeyHash wifVersion records passphrase =
      .error .walletDBError ∧
    decrypt_keys db = .error .keyErrorZero := by
  have hdk : decrypt_keys db = .error .keyErrorZero := by
    rw [decrypt_keys]
    cases hm : db.mkey with
    | none => exact absurd hm hmkey
    | some m => rfl
  refine ⟨?_, hdk⟩
  rw [read_wallet, hread]
  simp only []
  rw [if_pos ⟨hpass, hmkey⟩, hdk]

/-- A concrete `mkey` record key: `\x04mkey\x01`. -/
def c5Key : List Nat := [4, 109, 107, 101, 121, 1]

/-- A concrete `mkey` record value: 48-byte encrypted key, 8-byte salt,
method 0, 100000 iterations, empty other-params. -/
def c5Value : List Nat :=
  48 :: List.replicate 48 9 ++ 8 :: List.replicate 8 1 ++
    [0, 0, 0, 0, 160, 134, 1, 0, 0]

/-- C5 witness: a wallet with that single master-key record and a non-empty
passphrase makes `read_wallet` fail with `WalletDBError`. -/
theorem claim_C5_witness :
    read_wallet (fun _ => []) 0 128 [(c5Key, c5Value)] ['t'] =
      .error .walletDBError ∧
    decrypt_keys ⟨[], [],
      some ⟨4, List.replicate 48 9, List.replicate 8 1, 0, 100000, []⟩⟩ =
      .error .keyErrorZero :=
  claim_C5 (fun _ => []) 0 128 [(c5Key, c5Value)] ['t']
    ⟨[], [], some ⟨4, List.replicate 48 9, List.replicate 8 1, 0, 100000, []⟩⟩
    (by decide) (by decide) (by decide)

/-! ## Forensic scanner (`pywallet_refactored/recovery.py`, `scan_file`)

The three compiled regexes match a raw byte tag (`\x04\x01\x01\x04`,
`\x04mkey`, `\x04ckey`) followed by a fixed number of arbitrary bytes.  The
classification of each match, however, is
`data.startswith(b'\\x04...')` — byte strings whose first character is a
literal backslash (`0x5c`), because the escapes are doubled there — so no
match is ever classified and nothing is ever appended to the results.  The
chunk loop advances by exactly the chunk size with no overlap window. -/

/-- A recovered plaintext key (`RecoveredKey`). -/
structure RecoveredKey where
  private_key : List Nat
  public_key : List Nat
  compressed : Bool
  deriving DecidableEq, Repr

/-- A recovered encrypted key (`RecoveredEncryptedKey`). -/
structure RecoveredEncryptedKey where
  encrypted_private_key : List Nat
  public_key : List Nat
  compressed : Bool
  deriving DecidableEq, Repr

/-- A recovered master key (`RecoveredMasterKey`). -/
structure RecoveredMasterKey where
  encrypted_key : List Nat
  salt : List Nat
  iterations : Nat
  method : Nat
  deriving DecidableEq, Repr

/-- The `results` dict of `scan_file`. -/
structure ScanResults where
  keys : List RecoveredKey
  encrypted_keys : List RecoveredEncryptedKey
  master_keys : List RecoveredMasterKey
  deriving DecidableEq, Repr

/-- `pattern.finditer(buffer)` for a regex `tag ++ [\x00-\xff]{n}`:
left-to-right, non-overlapping matches of `total = tag.length + n` bytes
starting with `tag`; returns `(position, matched bytes)` pairs. -/
def find_matches (tag : List Nat) (total : Nat) :
    Nat → Nat → List Nat → List (Nat × List Nat)
  | 0, _, _ => []
  | fuel + 1, pos, rest =>
    if rest = [] then []
    else if tag.isPrefixOf rest ∧ total ≤ rest.length then
      (pos, rest.take total) ::
        find_matches tag total fuel (pos + total) (rest.drop total)
    else find_matches tag total fuel (pos + 1) (rest.drop 1)

/-- `b'\\x04\\x01\\x01\\x04'`: the bytes of the literal backslash escapes
(`\`, `x`, `0`, `4`, ...), 16 characters. -/
def litKeyTag : List Nat :=
  [92, 120, 48, 52, 92, 120, 48, 49, 92, 120, 48, 49, 92, 120, 48, 52]

/-- `b'\\x04mkey'`: backslash escape plus `mkey`, 8 characters. -/
def litMkeyTag : List Nat := [92, 120, 48, 52, 109, 107, 101, 121]

/-- `b'\\x04ckey'`. -/
def litCkeyTag : List Nat := [92, 120, 48, 52, 99, 107, 101, 121]

/-- The `if data.startswith(...)` / `elif` chain classifying one regex
match (recovery.py lines 222-254).  The slicing of the dead branches mirrors
the source (`data[4:36]`, `data[36:101]`, ...). -/
def classify_match (results : ScanResults) (data : List Nat) : ScanResults :=
  if litKeyTag.isPrefixOf data then
    { results with keys := results.keys ++
      [⟨(data.drop 4).take 32, (data.drop 36).take 65,
        ((data.drop 36).take 65).headD 0 != 4⟩] }
  else if litMkeyTag.isPrefixOf data then
    { results with master_keys := results.master_keys ++
      [⟨(data.drop 4).take 64, (data.drop 68).take 8,
        leUInt ((data.drop 76).take 4), leUInt ((data.drop 80).take 4)⟩] }
  else if litCkeyTag.isPrefixOf data then
    { results with encrypted_keys := results.encrypted_keys ++
      [⟨data.drop 70, (data.drop 5).take 65,
        ((data.drop 5).take 65).headD 0 != 4⟩] }
  else results

/-- Process one chunk: run the three `finditer` passes and classify each
match. -/
def scan_chunk (results : ScanResults) (buffer : List Nat) : ScanResults :=
  let r1 := (find_matches [4, 1, 1, 4] 76 buffer.length 0 buffer).foldl
    (fun acc m => classify_match acc m.2) results
  let r2 :=
    (find_matches [4, 109, 107, 101, 121] 89 buffer.length 0 buffer).foldl
      (fun acc m => classify_match acc m.2) r1
  (find_matches [4, 99, 107, 101, 121] 145 buffer.length 0 buffer).foldl
    (fun acc m => classify_match acc m.2) r2

/-- The 1 MiB chunk size of `scan_file`. -/
def scanBufferSize : Nat := 1048576

/-- The chunk loop of `scan_file`: read
`file[offset : offset + min(bufferSize, bound - offset)]`, stop on an empty
read, and advance by exactly the chunk size (no overlap window). -/
def scan_loop (file : List Nat) (bound : Nat) :
    Nat → Nat → ScanResults → ScanResults
  | 0, _, results => results
  | fuel + 1, offset, results =>
    if offset < bound then
      let size := min scanBufferSize (bound - offset)
      let buffer := (file.drop offset).take size
      if buffer = [] then results
      else scan_loop file bound fuel (offset + size)
        (scan_chunk results buffer)
    else results

/-- `scan_file(file_path, start_offset, max_size)`. -/
def scan_file (file : List Nat) (start_offset : Nat) (max_size : Option Nat) :
    ScanResults :=
  let maxSz := match max_size with
    | none => file.length - start_offset
    | some m => m
  scan_loop file (start_offset + maxSz) maxSz start_offset ⟨[], [], []⟩

theorem find_matches_head {tag : List Nat} {total t0 : Nat}
    (htag : tag.head? = some t0) (htot : 1 ≤ total) :
    ∀ fuel pos rest m, m ∈ find_matches tag total fuel pos rest →
      m.2.head? = some t0 := by
  intro fuel
  induction fuel with
  | zero => intro pos rest m hm; simp [find_matches] at hm
  | succ fuel ih =>
    intro pos rest m hm
    rw [find_matches] at hm
    by_cases hnil : rest = []
    · simp [hnil] at hm
    · rw [if_neg hnil] at hm
      by_cases hmatch : tag.isPrefixOf rest ∧ total ≤ rest.length
      · rw [if_pos hmatch] at hm
        rcases List.mem_cons.mp hm with rfl | hm
        · obtain ⟨tg, rfl⟩ : ∃ tg, tag = t0 :: tg := by
            cases tag with
            | nil => simp at htag
            | cons t ts =>
              rw [List.head?_cons] at htag
              injection htag with htag
              exact ⟨ts, by rw [htag]⟩
          cases rest with
          | nil => exact absurd rfl hnil
          | cons r rs =>
            have h0 : t0 = r := by
              have := hmatch.1
              simp [List.isPrefixOf] at this
              exact this.1
            rcases total with _ | total
            · omega
            · simp [List.take_succ_cons, h0]
        · exact ih _ _ _ hm
      · rw [if_neg hmatch] at hm
        exact ih _ _ _ hm

theorem classify_match_head4 (results : ScanResults) (data : List Nat)
    (h : data.head? = some 4) : classify_match results data = results := by
  obtain ⟨ds, rfl⟩ : ∃ ds, data = 4 :: ds := by
    cases data with
    | nil => simp at h
    | cons x xs =>
      rw [List.head?_cons] at h
      injection h with h
      exact ⟨xs, by rw [h]⟩
  simp [classify_match, litKeyTag, litMkeyTag, litCkeyTag, List.isPrefixOf]

theorem foldl_classify_head4 :
    ∀ (ms : List (Nat × List Nat)) (results : ScanResults),
      (∀ m ∈ ms, m.2.head? = some 4) →
      ms.foldl (fun acc m => classify_match acc m.2) results = results := by
  intro ms
  induction ms with
  | nil => intro results _; rfl
  | cons m ms ih =>
    intro results hall
    rw [List.foldl_cons, classify_match_head4 _ _ (hall m (by simp))]
    exact ih results (fun x hx => hall x (by simp [hx]))

theorem scan_chunk_eq (results : ScanResults) (buffer : List Nat) :
    scan_chunk results buffer = results := by
  rw [scan_chunk]
  rw [foldl_classify_head4 _ _
    (fun m hm => find_matches_head (by rfl) (by omega) _ _ _ m hm)]
  rw [foldl_classify_head4 _ _
    (fun m hm => find_matches_head (by rfl) (by omega) _ _ _ m hm)]
  rw [foldl_classify_head4 _ _
    (fun m hm => find_matches_head (by rfl) (by omega) _ _ _ m hm)]

theorem scan_loop_eq (file : List Nat) (bound : Nat) :
    ∀ fuel offset results,
      scan_loop file bound fuel offset results = results := by
  intro fuel
  induction fuel with
  | zero => intro offset results; rfl
  | succ fuel ih =>
    intro offset results
    rw [scan_loop]
    by_cases hlt : offset < bound
    · rw [if_pos hlt]
      simp only []
      by_cases hbuf :
          (file.drop offset).take (min scanBufferSize (bound - offset)) = []
      · rw [if_pos hbuf]
      · rw [if_neg hbuf, scan_chunk_eq, ih]
    · rw [if_neg hlt]

/-- A synthetic buffer with a 76-byte unencrypted-key signature planted at
offset 100. -/
def c4Buffer : List Nat :=
  List.replicate 100 0 ++ (4 :: 1 :: 1 :: 4 :: List.replicate 72 9) ++
    List.replicate 50 0

/-- C4: the regex pass does find a planted `\x04\x01\x01\x04` signature (at
its offset, here 100), but `scan_file` reports no recovered keys at all —
for every input file, offset and size its result is empty, because each
match is classified with `data.startswith` against the literal
backslash-escape bytes, which never match, and nothing is appended.  In
particular the planted-signature scenario of the claim yields zero keys,
not one; moreover the chunk loop advances with no overlap window, so a
straddling signature would not even reach the regex. -/
theorem claim_C4 :
    (∀ file start_offset max_size,
      scan_file file start_offset max_size =
        ScanResults.mk [] [] []) ∧
    find_matches [4, 1, 1, 4] 76 c4Buffer.length 0 c4Buffer =
      [(100, 4 :: 1 :: 1 :: 4 :: List.replicate 72 9)] ∧
    scan_file c4Buffer 0 none = ScanResults.mk [] [] [] := by
  refine ⟨?_, by decide, ?_⟩
  · intro file s m
    cases m with
    | none => exact scan_loop_eq _ _ _ _ _
    | some msz => exact scan_loop_eq _ _ _ _ _
  · exact scan_loop_eq _ _ _ _ _

/-! ## Brute-force engine (`wallet_brute_force.py`, `brute_force_generated`)

Candidates are `List Char` strings; the password-verification oracle
`check` stands for `check_password` with its cipher, key-derivation
function, encrypted key, salt and iteration count fixed (the engine depends
on it only through the boolean verdict).  The model covers the exhaustive
configuration of the claim: `smart=False`, `max_consecutive=0`, no
checkpoint.  `process_chunk_parallel`'s parallel path is modelled with the
sub-chunks collected in submission order. -/

/-- `itertools.product(charset, repeat=length)` joined to strings, in
product order (leftmost position most significant). -/
def product_strings (charset : List Char) : Nat → List (List Char)
  | 0 => [[]]
  | n + 1 =>
    charset.flatMap (fun c => (product_strings charset n).map (fun s => c :: s))

/-- `chunk_generator(generator, chunk_size)`: accumulate and yield a chunk
whenever the accumulator reaches `chunk_size`; yield the final partial
chunk. -/
def chunk_generator {α : Type} (size : Nat) : List α → List α → List (List α)
  | acc, [] => if acc.isEmpty then [] else [acc]
  | acc, x :: xs =>
    if size ≤ (acc ++ [x]).length then (acc ++ [x]) :: chunk_generator size [] xs
    else chunk_generator size (acc ++ [x]) xs

/-- `process_chunk`: verify every candidate of the chunk and collect the
passwords that pass. -/
def process_chunk (check : List Char → Bool) (chunk : List (List Char)) :
    List (List Char) :=
  chunk.filter check

/-- The `as_completed` collection loop of `process_chunk_parallel`: take the
per-sub-chunk results in order and stop at the first non-empty one
(cancelling the rest). -/
def ppc_collect (check : List Char → Bool) : List (List (List Char)) →
    List (List Char)
  | [] => []
  | sc :: rest =>
    if process_chunk check sc = [] then ppc_collect check rest
    else process_chunk check sc

/-- `process_chunk_parallel(chunk, ..., processes)`: sequential for
`processes ≤ 1` or small chunks, otherwise split into sub-chunks of
`max 100 (len / processes)` and collect until the first hit. -/
def process_chunk_parallel (check : List Char → Bool)
    (chunk : List (List Char)) (processes : Nat) : List (List Char) :=
  if processes ≤ 1 then process_chunk check chunk
  else if chunk.length < processes * 4 then process_chunk check chunk
  else ppc_collect check
    (chunk_generator (max 100 (chunk.length / processes)) [] chunk)

/-- The observable outcome of a `brute_force_generated` run: the collected
verified passwords, the attempt counter, and how many candidate batches
were processed. -/
structure BFOutcome where
  found : List (List Char)
  attempts : Nat
  batches : Nat
  deriving DecidableEq, Repr

/-- One batch of the main loop: process the batch, count the attempts, then
re-verify each result and append it to `found_passwords` — and continue;
there is no `break` or `return` here, the loop prints
"Continuing to search for additional matches..." and goes on. -/
def bf_batch_step (check : List Char → Bool) (processes : Nat)
    (out : BFOutcome) (batch : List (List Char)) : BFOutcome :=
  let results := process_chunk_parallel check batch processes
  ⟨out.found ++ results.filter check, out.attempts + batch.length,
   out.batches + 1⟩

/-- One length tier of the main loop. -/
def bf_length_pass (check : List Char → Bool) (processes : Nat)
    (charset : List Char) (batch_size : Nat) (out : BFOutcome)
    (length : Nat) : BFOutcome :=
  (chunk_generator batch_size [] (product_strings charset length)).foldl
    (bf_batch_step check processes) out

/-- `brute_force_generated(min_length, max_length, charset, ...)` in the
exhaustive configuration: run every length tier and every batch, then
return the first found password, or `none` after reporting no match. -/
def brute_force_generated (check : List Char → Bool)
    (min_length max_length : Nat) (charset : List Char)
    (batch_size processes : Nat) : BFOutcome × Option (List Char) :=
  let out := (List.range' min_length (max_length + 1 - min_length)).foldl
    (bf_length_pass check processes charset batch_size) ⟨[], 0, 0⟩
  (out, out.found.head?)

theorem chunk_generator_flatten {α : Type} (size : Nat) :
    ∀ (l acc : List α), (chunk_generator size acc l).flatten = acc ++ l := by
  intro l
  induction l with
  | nil =>
    intro acc
    by_cases hacc : acc = []
    · simp [chunk_generator, hacc, List.isEmpty_nil]
    · rw [chunk_generator, if_neg (by simpa [List.isEmpty_iff] using hacc)]
      simp
  | cons x xs ih =>
    intro acc
    rw [chunk_generator]
    by_cases hsz : size ≤ (acc ++ [x]).length
    · rw [if_pos hsz, List.flatten_cons, ih]
      simp
    · rw [if_neg hsz, ih]
      simp

theorem bf_batches_fold (check : List Char → Bool) :
    ∀ (bs : List (List (List Char))) (out : BFOutcome),
      bs.foldl (bf_batch_step check 1) out =
        ⟨out.found ++ bs.flatten.filter check,
         out.attempts + bs.flatten.length, out.batches + bs.length⟩ := by
  intro bs
  induction bs with
  | nil => intro out; simp
  | cons b bs ih =>
    intro out
    rw [List.foldl_cons, ih]
    have hstep : bf_batch_step check 1 out b =
        ⟨out.found ++ b.filter check, out.attempts + b.length,
         out.batches + 1⟩ := by
      rw [bf_batch_step]
      have hp : process_chunk_parallel check b 1 = b.filter check := by
        rw [process_chunk_parallel, if_pos (by omega)]
        rfl
      rw [hp]
      simp [List.filter_filter]
    rw [hstep]
    simp only [List.flatten_cons, List.filter_append, List.length_append,
      List.length_cons]
    congr 1
    · simp
    · omega
    · omega

theorem bf_lengths_fold (check : List Char → Bool) (charset : List Char)
    (batch_size : Nat) :
    ∀ (ls : List Nat) (out : BFOutcome),
      ls.foldl (bf_length_pass check 1 charset batch_size) out =
        ⟨out.found ++ (ls.flatMap (product_strings charset)).filter check,
         out.attempts + (ls.flatMap (product_strings charset)).length,
         out.batches +
           (ls.map (fun L =>
             (chunk_generator batch_size []
               (product_strings charset L)).length)).sum⟩ := by
  intro ls
  induction ls with
  | nil => intro out; simp
  | cons L ls ih =>
    intro out
    rw [List.foldl_cons, bf_length_pass, bf_batches_fold, ih,
      chunk_generator_flatten]
    simp only [List.nil_append, List.flatMap_cons, List.filter_append,
      List.length_append, List.map_cons, List.sum_cons]
    congr 1
    · simp
    · omega
    · omega

theorem filter_beq_head {α : Type} [BEq α] [LawfulBEq α] (t : α) :
    ∀ l : List α, t ∈ l → (l.filter (fun s => s == t)).head? = some t := by
  intro l
  induction l with
  | nil => intro h; simp at h
  | cons x xs ih =>
    intro h
    rw [List.filter_cons]
    by_cases hx : x = t
    · subst hx
      simp
    · have hbeq : (x == t) = false := beq_eq_false_iff_ne.mpr hx
      rcases List.mem_cons.mp h with rfl | hmem
      · exact absurd rfl hx
      · simp only [hbeq, Bool.false_eq_true, if_false]
        exact ih hmem

/-- C6 counterexample: charset `{a, b}`, length 1, one candidate per batch,
sequential verification, target `"a"`.  The first batch already returns the
verified match, yet the engine still processes the second batch — 2 batches
in total — so a verified match does not stop further batches from being
scheduled. -/
theorem claim_C6_cex :
    process_chunk (fun s => s == ['a']) [['a']] = [['a']] ∧
    (brute_force_generated (fun s => s == ['a']) 1 1 ['a', 'b'] 1 1).1 =
      ⟨[['a']], 2, 2⟩ ∧
    (brute_force_generated (fun s => s == ['a']) 1 1 ['a', 'b'] 1 1).2 =
      some ['a'] := by
  refine ⟨by decide, by decide, by decide⟩

/-- C6 (amended): in the sequential exhaustive configuration the engine
never short-circuits: it processes every batch of every length tier,
collects every verified match, counts one attempt per candidate (so
`attempts` equals the size of the search space, in particular `attempts ≤
|space|`), terminates, and finally returns the first matching candidate in
generation order (so a space containing the target does yield the target —
but only after the whole space has been searched). -/
theorem claim_C6 (check : List Char → Bool) (min_length max_length : Nat)
    (charset : List Char) (batch_size : Nat) :
    (brute_force_generated check min_length max_length charset
        batch_size 1).1.found =
      ((List.range' min_length (max_length + 1 - min_length)).flatMap
        (product_strings charset)).filter check ∧
    (brute_force_generated check min_length max_length charset
        batch_size 1).1.attempts =
      ((List.range' min_length (max_length + 1 - min_length)).flatMap
        (product_strings charset)).length ∧
    (brute_force_generated check min_length max_length charset
        batch_size 1).2 =
      (((List.range' min_length (max_length + 1 - min_length)).flatMap
        (product_strings charset)).filter check).head? ∧
    (∀ target,
      target ∈ (List.range' min_length (max_length + 1 - min_length)).flatMap
        (product_strings charset) →
      (brute_force_generated (fun s => s == target) min_length max_length
        charset batch_size 1).2 = some target) := by
  have hmain : ∀ chk : List Char → Bool,
      (brute_force_generated chk min_length max_length charset
        batch_size 1).1.found =
      ((List.range' min_length (max_length + 1 - min_length)).flatMap
        (product_strings charset)).filter chk := by
    intro chk
    rw [brute_force_generated]
    simp only [bf_lengths_fold]
    simp
  refine ⟨hmain check, ?_, ?_, ?_⟩
  · rw [brute_force_generated]
    simp only [bf_lengths_fold]
    simp
  · rw [brute_force_generated]
    simp only [bf_lengths_fold]
    simp only [List.nil_append]
  · intro target hmem
    rw [brute_force_generated]
    simp only [bf_lengths_fold]
    simp only [List.nil_append]
    exact filter_beq_head target _ hmem

/-- C6 witness: the amended behaviour at the concrete two-element space. -/
theorem claim_C6_witness :
    (brute_force_generated (fun s => s == ['b']) 1 1 ['a', 'b'] 1 1).2 =
      some ['b'] :=
  (claim_C6 (fun s => s == ['b']) 1 1 ['a', 'b'] 1).2.2.2 ['b'] (by decide)

end PyWallet
